import Mathlib

/-
  Verification development for the embykeeper Telegram core
  (src/embykeeper/telechecker/tele.py and src/embykeeper/telechecker/link.py).

  The development shallowly embeds three mechanisms:
  * the per-client update `Dispatcher` (tele.py, class Dispatcher);
  * the reference-counted client pool `ClientsSession` with its watchdog
    (tele.py, class ClientsSession);
  * the relay request operation `Link.post` with its one-shot message
    handler (link.py, class Link).

  Python dictionaries, lists, asyncio tasks and exceptions are embedded as
  Lean inductive data; each Lean definition is a direct transcription of the
  corresponding Python function, with a comment pointing at the source.
-/

/-! ### Dispatcher data model (tele.py, class Dispatcher)

An update is abstracted as a natural number.  A registered handler is either
a `NewMessage`-style handler carrying a filter (the worker awaits
`handler.filter(update)`, which can match, not match, or raise) or a
`Raw`-style handler (which always receives the update).  The handler's
callback can return normally, raise an ordinary exception, or raise
`StopPropagation`.  `hid` models Python object identity, used by
`list.remove` in `Dispatcher.remove_handler`. -/

abbrev Update := Nat

inductive FilterRes where
  | matched
  | noMatch
  | raisedErr
deriving DecidableEq, Repr

inductive HandlerKind where
  | newMessage (filter : Update → FilterRes)
  | raw

inductive CbRes where
  | ok
  | raisesError
  | raisesStop
deriving DecidableEq, Repr

structure Handler where
  hid : Nat
  kind : HandlerKind
  callback : CbRes

/-- The handler registry: `Dispatcher.groups`, an ordered dict from group
number to the list of handlers registered in that group. -/
abbrev Registry := List (Nat × List Handler)

/-- Result of the `args` computation in `Dispatcher.handler_worker`
(tele.py lines 134-148): `given` when `args` is set, `skip` when the filter
does not match, `err` when the filter raised (logged, then `continue`). -/
inductive ArgRes where
  | given
  | skip
  | err
deriving DecidableEq, Repr

def argsOf (h : Handler) (u : Update) : ArgRes :=
  match h.kind with
  | .newMessage f =>
    match f u with
    | .matched => .given
    | .noMatch => .skip
    | .raisedErr => .err
  | .raw => .given

/-- A handler "matches" an update when `args` gets set for it. -/
def matchesB (h : Handler) (u : Update) : Bool :=
  match argsOf h u with
  | .given => true
  | _ => false

def cbStops (h : Handler) : Bool :=
  match h.callback with
  | .raisesStop => true
  | _ => false

inductive LogEv where
  | filterError
  | callbackError
deriving DecidableEq, Repr

/-- Inner loop of `Dispatcher.handler_worker` over one group's handler list
(tele.py lines 133-167): the first handler with `args` set has its callback
invoked; a filter exception is logged and the handler skipped; a callback
exception is logged (`更新回调函数内发生错误`) and the loop still `break`s;
`StopPropagation` is re-raised.  Returns the logs plus the invoked handler
and whether `StopPropagation` escaped. -/
def runGroup : List Handler → Update → List LogEv × Option (Handler × Bool)
  | [], _ => ([], none)
  | h :: hs, u =>
    match argsOf h u with
    | .err =>
      let r := runGroup hs u
      (.filterError :: r.1, r.2)
    | .skip => runGroup hs u
    | .given =>
      match h.callback with
      | .ok => ([], some (h, false))
      | .raisesError => ([.callbackError], some (h, false))
      | .raisesStop => ([], some (h, true))

/-- Outer loop of `Dispatcher.handler_worker` over the snapshot of the
groups (tele.py lines 132-168): the `for … else: continue / break` pattern
means the first group producing a match stops the whole pass. -/
def runGroups : Registry → Update → List LogEv × Option (Handler × Bool)
  | [], _ => ([], none)
  | (_, hs) :: rest, u =>
    match runGroup hs u with
    | (ls, none) =>
      let r := runGroups rest u
      (ls ++ r.1, r.2)
    | (ls, some hr) => (ls, some hr)

structure DispatchOut where
  invoked : List Handler
  logs : List LogEv
  raised : Bool

/-- Processing of one packet by `Dispatcher.handler_worker`: the dispatch
pass over the snapshotted groups, with the list of callbacks invoked, the
errors logged, and whether `StopPropagation` escaped to the per-packet
`try`. -/
def handlePacket (gs : Registry) (u : Update) : DispatchOut :=
  match runGroups gs u with
  | (ls, none) => ⟨[], ls, false⟩
  | (ls, some (h, b)) => ⟨[h], ls, b⟩

/-- The worker loop (tele.py lines 119-175): pull packets from the queue,
stop on the `None` shutdown sentinel, process each packet catching
`StopPropagation` and ordinary exceptions at the per-packet `try`. -/
def handlerWorker (gs : Registry) : List (Option Update) → List (Update × List Handler)
  | [] => []
  | none :: _ => []
  | some u :: rest => (u, (handlePacket gs u).invoked) :: handlerWorker gs rest

/-! ### Handler registration (tele.py, `Dispatcher.add_handler` /
`Dispatcher.remove_handler`)

`add_handler` appends the handler to its group's list, first creating the
group and re-sorting the dict by group number (`OrderedDict(sorted(...))`)
when the group is new.  `remove_handler` removes the first occurrence of the
handler from its group (Python `list.remove`); when the group or the handler
is missing a `ValueError` is raised inside the scheduled task and the
registry is left unchanged. -/

def insertByKey (p : Nat × List Handler) : Registry → Registry
  | [] => [p]
  | q :: rest => if p.1 ≤ q.1 then p :: q :: rest else q :: insertByKey p rest

/-- Model of Python `sorted(self.groups.items())`: group keys are distinct,
so only the integer keys are compared. -/
def sortByKey : Registry → Registry
  | [] => []
  | p :: rest => insertByKey p (sortByKey rest)

def add_handler (reg : Registry) (h : Handler) (g : Nat) : Registry :=
  if reg.any (fun p => p.1 == g) then
    reg.map (fun p => if p.1 = g then (p.1, p.2 ++ [h]) else p)
  else
    (sortByKey (reg ++ [(g, [])])).map (fun p => if p.1 = g then (p.1, p.2 ++ [h]) else p)

def removeFirstHid (i : Nat) : List Handler → List Handler
  | [] => []
  | h :: hs => if h.hid = i then hs else h :: removeFirstHid i hs

def remove_handler (reg : Registry) (i : Nat) (g : Nat) : Registry :=
  if reg.any (fun p => p.1 == g && p.2.any (fun h => h.hid == i)) then
    reg.map (fun p => if p.1 = g then (p.1, removeFirstHid i p.2) else p)
  else reg

/-- Registration operations driven by callers of
`Client.add_handler`. -/
inductive RegOp where
  | add (h : Handler) (g : Nat)

def buildRegistry (ops : List RegOp) : Registry :=
  ops.foldl (fun reg op => match op with | .add h g => add_handler reg h g) []

/-! ### Specification-side dispatch order

`flatHandlers` lists all handlers in (group order, registration order);
`firstMatch` is the first handler in that order whose predicate matches.
The claim theorems compare the transcribed worker against these. -/

def flatHandlers : Registry → List Handler
  | [] => []
  | p :: rest => p.2 ++ flatHandlers rest

def firstMatch : List Handler → Update → Option Handler
  | [], _ => none
  | h :: hs, u => if matchesB h u then some h else firstMatch hs u

/-! ### Sortedness of the registry keys -/

def keyLe (p q : Nat × List Handler) : Prop := p.1 ≤ q.1

def keyLt (p q : Nat × List Handler) : Prop := p.1 < q.1

theorem insertByKey_perm (p : Nat × List Handler) (l : Registry) :
    List.Perm (insertByKey p l) (p :: l) := by
  induction l with
  | nil => simp [insertByKey]
  | cons q rest ih =>
    by_cases hle : p.1 ≤ q.1
    · simp [insertByKey, hle]
    · simp only [insertByKey, hle, if_false]
      exact (List.Perm.cons q ih).trans (List.Perm.swap p q rest)

theorem sortByKey_perm (l : Registry) : List.Perm (sortByKey l) l := by
  induction l with
  | nil => simp [sortByKey]
  | cons p rest ih =>
    exact (insertByKey_perm p (sortByKey rest)).trans (List.Perm.cons p ih)

theorem insertByKey_sortedLe (p : Nat × List Handler) (l : Registry)
    (hl : l.Pairwise keyLe) : (insertByKey p l).Pairwise keyLe := by
  induction l with
  | nil => simp [insertByKey, List.pairwise_singleton]
  | cons q rest ih =>
    rcases List.pairwise_cons.mp hl with ⟨hq, hrest⟩
    by_cases hle : p.1 ≤ q.1
    · simp only [insertByKey, hle, if_true]
      refine List.pairwise_cons.mpr ⟨?_, hl⟩
      intro x hx
      rcases List.mem_cons.mp hx with h1 | h2
      · subst h1; exact hle
      · exact le_trans hle (hq x h2)
    · simp only [insertByKey, hle, if_false]
      refine List.pairwise_cons.mpr ⟨?_, ih hrest⟩
      intro x hx
      have hx' : x ∈ p :: rest := (insertByKey_perm p rest).mem_iff.mp hx
      rcases List.mem_cons.mp hx' with h1 | h2
      · subst h1; exact le_of_lt (Nat.lt_of_not_le hle)
      · exact hq x h2

theorem sortByKey_sortedLe (l : Registry) : (sortByKey l).Pairwise keyLe := by
  induction l with
  | nil => simp [sortByKey]
  | cons p rest ih => exact insertByKey_sortedLe p (sortByKey rest) ih

theorem pairwise_keyLt_of_le_ne (l : Registry)
    (hle : l.Pairwise keyLe) (hne : (l.map Prod.fst).Nodup) :
    l.Pairwise keyLt := by
  have hne' : l.Pairwise (fun p q => p.1 ≠ q.1) :=
    (List.pairwise_map.mp hne)
  exact (hle.and hne').imp (fun h => lt_of_le_of_ne h.1 h.2)

theorem keyLt_ite_append (g : Nat) (h : Handler) :
    ∀ p q : Nat × List Handler, keyLt p q →
      keyLt (if p.1 = g then (p.1, p.2 ++ [h]) else p)
            (if q.1 = g then (q.1, q.2 ++ [h]) else q) := by
  intro p q hpq
  by_cases hp : p.1 = g <;> by_cases hq : q.1 = g <;>
    simp only [hp, hq, if_true, if_false, keyLt] at hpq ⊢ <;> exact hpq

theorem add_handler_sorted (reg : Registry) (h : Handler) (g : Nat)
    (hreg : reg.Pairwise keyLt) : (add_handler reg h g).Pairwise keyLt := by
  unfold add_handler
  by_cases hmem : reg.any (fun p => p.1 == g)
  · simp only [hmem, if_true]
    exact List.Pairwise.map _ (keyLt_ite_append g h) hreg
  · simp only [hmem, if_false]
    -- keys of the sorted extended list are a permutation of (keys reg) ++ [g]
    have hfresh : ∀ p ∈ reg, p.1 ≠ g := by
      intro p hp
      have hne := List.any_eq_true.not.mp hmem
      push_neg at hne
      have h2 := hne p hp
      simpa using h2
    have hnodupKeys : (reg.map Prod.fst).Nodup :=
      (List.pairwise_map.mpr (hreg.imp (fun hpq => ne_of_lt hpq)))
    have hnodupExt : ((reg ++ [(g, [])]).map Prod.fst).Nodup := by
      simp only [List.map_append, List.map_cons, List.map_nil]
      refine List.Nodup.append hnodupKeys (List.nodup_singleton g) ?_
      intro a ha hb
      simp only [List.mem_singleton] at hb
      subst hb
      rcases List.mem_map.mp ha with ⟨p, hp, hpa⟩
      exact hfresh p hp hpa
    have hperm : List.Perm ((sortByKey (reg ++ [(g, [])])).map Prod.fst)
        ((reg ++ [(g, [])]).map Prod.fst) :=
      (sortByKey_perm (reg ++ [(g, [])])).map Prod.fst
    have hnodupSorted : ((sortByKey (reg ++ [(g, [])])).map Prod.fst).Nodup :=
      hperm.nodup_iff.mpr hnodupExt
    have hsortedLt : (sortByKey (reg ++ [(g, [])])).Pairwise keyLt :=
      pairwise_keyLt_of_le_ne _ (sortByKey_sortedLe _) hnodupSorted
    exact List.Pairwise.map _ (keyLt_ite_append g h) hsortedLt

theorem buildRegistry_sorted (ops : List RegOp) :
    (buildRegistry ops).Pairwise keyLt := by
  suffices h : ∀ reg : Registry, reg.Pairwise keyLt →
      (ops.foldl (fun reg op => match op with | .add h g => add_handler reg h g) reg).Pairwise keyLt by
    exact h [] (List.Pairwise.nil)
  induction ops with
  | nil => intro reg hreg; exact hreg
  | cons op rest ih =>
    intro reg hreg
    cases op with
    | add h g => exact ih _ (add_handler_sorted reg h g hreg)

/-! ### Correspondence between the worker loop and first-match order -/

theorem runGroup_snd (hs : List Handler) (u : Update) :
    (runGroup hs u).2 = (firstMatch hs u).map (fun h => (h, cbStops h)) := by
  induction hs with
  | nil => rfl
  | cons h rest ih =>
    cases hag : argsOf h u with
    | given =>
      cases hcb : h.callback <;>
        simp [runGroup, firstMatch, matchesB, hag, hcb, cbStops]
    | skip => simp [runGroup, firstMatch, matchesB, hag, ih]
    | err => simp [runGroup, firstMatch, matchesB, hag, ih]

theorem firstMatch_append (xs ys : List Handler) (u : Update) :
    firstMatch (xs ++ ys) u =
      match firstMatch xs u with
      | some h => some h
      | none => firstMatch ys u := by
  induction xs with
  | nil => simp [firstMatch]
  | cons h rest ih =>
    by_cases hm : matchesB h u <;> simp [firstMatch, hm, ih]

theorem runGroups_snd (gs : Registry) (u : Update) :
    (runGroups gs u).2 = (firstMatch (flatHandlers gs) u).map (fun h => (h, cbStops h)) := by
  induction gs with
  | nil => rfl
  | cons p rest ih =>
    obtain ⟨g, hs⟩ := p
    simp only [runGroups, flatHandlers, firstMatch_append]
    cases hrg : (runGroup hs u).2 with
    | none =>
      have := runGroup_snd hs u
      rw [hrg] at this
      cases hfm : firstMatch hs u with
      | none =>
        rcases hsplit : runGroup hs u with ⟨ls, r⟩
        rw [hsplit] at hrg; subst hrg
        simp [hsplit, hfm, ih]
      | some h => rw [hfm] at this; simp at this
    | some hr =>
      have := runGroup_snd hs u
      rw [hrg] at this
      cases hfm : firstMatch hs u with
      | none => rw [hfm] at this; simp at this
      | some h =>
        rw [hfm] at this
        rcases hsplit : runGroup hs u with ⟨ls, r⟩
        rw [hsplit] at hrg; subst hrg
        simp only [hsplit, hfm]
        simp at this
        simp [this]

theorem handlePacket_invoked (gs : Registry) (u : Update) :
    (handlePacket gs u).invoked =
      match firstMatch (flatHandlers gs) u with
      | some h => [h]
      | none => [] := by
  unfold handlePacket
  rcases hsplit : runGroups gs u with ⟨ls, r⟩
  have := runGroups_snd gs u
  rw [hsplit] at this
  simp only at this
  cases hfm : firstMatch (flatHandlers gs) u with
  | none => rw [hfm] at this; simp at this; simp [this]
  | some h =>
    rw [hfm] at this
    simp at this
    simp [this]

/-- C1.  For every update processed by a Dispatcher worker, priority groups
are visited in ascending numeric order and handlers within a group in
registration order; the first handler whose predicate matches has its
callback invoked and all remaining handlers in that group and all
higher-numbered groups are skipped for that update; if no handler in any
group matches, the update is dropped without any callback invocation. -/
theorem dispatcher_first_match_c1 (ops : List RegOp) (u : Update) :
    ((buildRegistry ops).map Prod.fst).Pairwise (· < ·) ∧
    (handlePacket (buildRegistry ops) u).invoked =
      (match firstMatch (flatHandlers (buildRegistry ops)) u with
       | some h => [h]
       | none => []) := by
  constructor
  · exact List.pairwise_map.mpr (buildRegistry_sorted ops)
  · exact handlePacket_invoked _ u

/-! ### Callback errors (claim C10) -/

theorem firstMatch_none_of_all (hs : List Handler) (u : Update)
    (h : ∀ x ∈ hs, matchesB x u = false) : firstMatch hs u = none := by
  induction hs with
  | nil => rfl
  | cons x rest ih =>
    have hx := h x (List.mem_cons_self x rest)
    simp only [firstMatch, hx, if_false]
    exact ih (fun y hy => h y (List.mem_cons_of_mem x hy))

theorem flatHandlers_append (gs1 gs2 : Registry) :
    flatHandlers (gs1 ++ gs2) = flatHandlers gs1 ++ flatHandlers gs2 := by
  induction gs1 with
  | nil => rfl
  | cons p rest ih => simp [flatHandlers, ih]

theorem handlePacket_logs (gs : Registry) (u : Update) :
    (handlePacket gs u).logs = (runGroups gs u).1 := by
  unfold handlePacket
  rcases hsplit : runGroups gs u with ⟨ls, r⟩
  cases r with
  | none => rfl
  | some hr => obtain ⟨h, b⟩ := hr; rfl

theorem handlePacket_raised (gs : Registry) (u : Update) :
    (handlePacket gs u).raised =
      ((firstMatch (flatHandlers gs) u).map cbStops).getD false := by
  unfold handlePacket
  rcases hsplit : runGroups gs u with ⟨ls, r⟩
  have hc := runGroups_snd gs u
  rw [hsplit] at hc
  simp only at hc
  cases hfm : firstMatch (flatHandlers gs) u with
  | none => rw [hfm] at hc; simp at hc; simp [hc]
  | some h =>
    rw [hfm] at hc
    simp at hc
    simp [hc]

theorem runGroup_logs_mem (hs : List Handler) (u : Update) (h : Handler) (b : Bool)
    (hfind : (runGroup hs u).2 = some (h, b)) (hcb : h.callback = .raisesError) :
    LogEv.callbackError ∈ (runGroup hs u).1 := by
  induction hs with
  | nil => simp [runGroup] at hfind
  | cons x rest ih =>
    cases hag : argsOf x u with
    | err =>
      simp only [runGroup, hag] at hfind ⊢
      exact List.mem_cons_of_mem _ (ih hfind)
    | skip =>
      simp only [runGroup, hag] at hfind ⊢
      exact ih hfind
    | given =>
      cases hxcb : x.callback <;> simp only [runGroup, hag, hxcb] at hfind ⊢
      · obtain ⟨rfl, -⟩ := Prod.mk.injEq .. ▸ (Option.some.injEq .. ▸ hfind)
        rw [hxcb] at hcb
        exact absurd hcb (by simp)
      · exact List.mem_singleton.mpr rfl
      · obtain ⟨rfl, -⟩ := Prod.mk.injEq .. ▸ (Option.some.injEq .. ▸ hfind)
        rw [hxcb] at hcb
        exact absurd hcb (by simp)

theorem runGroups_logs_mem (gs : Registry) (u : Update) (h : Handler) (b : Bool)
    (hfind : (runGroups gs u).2 = some (h, b)) (hcb : h.callback = .raisesError) :
    LogEv.callbackError ∈ (runGroups gs u).1 := by
  induction gs with
  | nil => simp [runGroups] at hfind
  | cons p rest ih =>
    obtain ⟨g, hs⟩ := p
    rcases hg : runGroup hs u with ⟨ls, r⟩
    cases r with
    | none =>
      simp only [runGroups, hg] at hfind ⊢
      exact List.mem_append_right _ (ih hfind)
    | some hr =>
      simp only [runGroups, hg] at hfind ⊢
      obtain rfl : hr = (h, b) := by simpa using hfind
      have := runGroup_logs_mem hs u h b (by rw [hg]) hcb
      rw [hg] at this
      exact this

/-- C10.  In the Dispatcher's worker, when the matched handler's callback
raises an ordinary (non-propagation, non-cancellation) exception, the error
is logged and that update's processing still ends at that handler: no later
handler in the same group and no higher-numbered group is tried for that
update (the failing match still short-circuits), and the worker continues
with the next queued update. -/
theorem dispatcher_callback_error_c10
    (gs1 gs2 : Registry) (g : Nat) (pre post : List Handler)
    (h : Handler) (u : Update) (rest : List (Option Update))
    (hpre : ∀ x ∈ flatHandlers gs1 ++ pre, matchesB x u = false)
    (hm : matchesB h u = true)
    (hcb : h.callback = .raisesError) :
    (handlePacket (gs1 ++ (g, pre ++ h :: post) :: gs2) u).invoked = [h] ∧
    LogEv.callbackError ∈ (handlePacket (gs1 ++ (g, pre ++ h :: post) :: gs2) u).logs ∧
    (handlePacket (gs1 ++ (g, pre ++ h :: post) :: gs2) u).raised = false ∧
    handlerWorker (gs1 ++ (g, pre ++ h :: post) :: gs2) (some u :: rest) =
      (u, [h]) :: handlerWorker (gs1 ++ (g, pre ++ h :: post) :: gs2) rest := by
  have hflat : flatHandlers (gs1 ++ (g, pre ++ h :: post) :: gs2) =
      (flatHandlers gs1 ++ pre) ++ h :: (post ++ flatHandlers gs2) := by
    rw [flatHandlers_append]
    simp [flatHandlers, List.append_assoc]
  have hfm : firstMatch (flatHandlers (gs1 ++ (g, pre ++ h :: post) :: gs2)) u = some h := by
    rw [hflat, firstMatch_append, firstMatch_none_of_all _ u hpre]
    simp [firstMatch, hm]
  refine ⟨?_, ?_, ?_, ?_⟩
  · rw [handlePacket_invoked, hfm]
  · rw [handlePacket_logs]
    have hsnd := runGroups_snd (gs1 ++ (g, pre ++ h :: post) :: gs2) u
    rw [hfm] at hsnd
    exact runGroups_logs_mem _ u h (cbStops h) (by simpa using hsnd) hcb
  · rw [handlePacket_raised, hfm]
    simp [cbStops, hcb]
  · have hinv : (handlePacket (gs1 ++ (g, pre ++ h :: post) :: gs2) u).invoked = [h] := by
      rw [handlePacket_invoked, hfm]
    simp [handlerWorker, hinv]

/-- A raw handler whose callback raises an ordinary exception. -/
def hErrRaw : Handler := ⟨0, .raw, .raisesError⟩

/-- A raw handler with a normal callback. -/
def hOkRaw : Handler := ⟨1, .raw, .ok⟩

theorem dispatcher_callback_error_c10_witness :
    (handlePacket [(0, [hErrRaw]), (5, [hOkRaw])] 0).invoked = [hErrRaw] ∧
    LogEv.callbackError ∈ (handlePacket [(0, [hErrRaw]), (5, [hOkRaw])] 0).logs ∧
    (handlePacket [(0, [hErrRaw]), (5, [hOkRaw])] 0).raised = false ∧
    handlerWorker [(0, [hErrRaw]), (5, [hOkRaw])] (some 0 :: []) =
      (0, [hErrRaw]) :: handlerWorker [(0, [hErrRaw]), (5, [hOkRaw])] [] := by
  have := dispatcher_callback_error_c10 [] [(5, [hOkRaw])] 0 [] [] hErrRaw 0 []
    (by intro x hx; simp [flatHandlers] at hx) rfl rfl
  simpa using this

/-! ### Snapshot semantics of a dispatch pass (claim C7)

`Dispatcher.handler_worker` copies the groups under the mutex at the start
of each pass (`groups = {i: g[:] for i, g in self.groups.items()}`,
tele.py lines 129-130) and then iterates the copy, suspending at each
handler invocation.  `add_handler` / `remove_handler` mutate `self.groups`
under the mutex and may interleave with those suspensions.  The machine
below runs one pass at micro-step granularity: an `inspect` event examines
one handler of the snapshot (or pops an exhausted group), a `mutate` event
applies a registration change to the live registry. -/

inductive Mutation where
  | addM (h : Handler) (g : Nat)
  | removeM (i : Nat) (g : Nat)

def applyMutation (m : Mutation) (reg : Registry) : Registry :=
  match m with
  | .addM h g => add_handler reg h g
  | .removeM i g => remove_handler reg i g

inductive PassEv where
  | inspect
  | mutate (m : Mutation)

structure PassSt where
  rem : Registry
  reg : Registry
  out : Option Handler
  halted : Bool

/-- One micro-step of the worker's pass over the snapshot. -/
def inspectStep (u : Update) (s : PassSt) : PassSt :=
  if s.halted then s else
  match s.rem with
  | [] => s
  | (_, []) :: rest => { s with rem := rest }
  | (g, h :: hs) :: rest =>
    match argsOf h u with
    | .given => { s with out := some h, halted := true }
    | _ => { s with rem := (g, hs) :: rest }

def passStep (u : Update) (s : PassSt) : PassEv → PassSt
  | .inspect => inspectStep u s
  | .mutate m => { s with reg := applyMutation m s.reg }

def runPass (u : Update) (evs : List PassEv) (s : PassSt) : PassSt :=
  evs.foldl (passStep u) s

/-- Pass start: the snapshot equals the live registry. -/
def initPass (reg : Registry) : PassSt := ⟨reg, reg, none, false⟩

def countInspects (evs : List PassEv) : Nat :=
  evs.countP (fun e => match e with | .inspect => true | _ => false)

def mutationsOf : List PassEv → List Mutation
  | [] => []
  | .inspect :: rest => mutationsOf rest
  | .mutate m :: rest => m :: mutationsOf rest

def passMeasure : Registry → Nat
  | [] => 0
  | p :: rest => p.2.length + 1 + passMeasure rest

def passView (u : Update) (s : PassSt) : Option Handler :=
  if s.halted then s.out else firstMatch (flatHandlers s.rem) u

theorem passView_step (u : Update) (s : PassSt) (e : PassEv) :
    passView u (passStep u s e) = passView u s := by
  cases e with
  | mutate m => simp [passStep, passView]
  | inspect =>
    simp only [passStep]
    by_cases hh : s.halted
    · simp [inspectStep, hh]
    · cases hrem : s.rem with
      | nil => simp [inspectStep, hh, hrem]
      | cons p rest =>
        obtain ⟨g, hs⟩ := p
        cases hs with
        | nil => simp [inspectStep, hh, hrem, passView, flatHandlers]
        | cons h tl =>
          cases hag : argsOf h u with
          | given =>
            simp [inspectStep, hh, hrem, passView, flatHandlers, firstMatch,
              matchesB, hag]
          | skip =>
            simp [inspectStep, hh, hrem, passView, flatHandlers, firstMatch,
              matchesB, hag]
          | err =>
            simp [inspectStep, hh, hrem, passView, flatHandlers, firstMatch,
              matchesB, hag]

theorem runPass_view (u : Update) (evs : List PassEv) (s : PassSt) :
    passView u (runPass u evs s) = passView u s := by
  induction evs generalizing s with
  | nil => rfl
  | cons e rest ih => rw [runPass, List.foldl_cons, ← runPass, ih, passView_step]

theorem passStep_reg (u : Update) (s : PassSt) :
    (passStep u s .inspect).reg = s.reg := by
  simp only [passStep]
  by_cases hh : s.halted
  · simp [inspectStep, hh]
  · cases hrem : s.rem with
    | nil => simp [inspectStep, hh, hrem]
    | cons p rest =>
      obtain ⟨g, hs⟩ := p
      cases hs with
      | nil => simp [inspectStep, hh, hrem]
      | cons h tl =>
        cases hag : argsOf h u <;> simp [inspectStep, hh, hrem, hag]

theorem runPass_reg (u : Update) (evs : List PassEv) (s : PassSt) :
    (runPass u evs s).reg =
      (mutationsOf evs).foldl (fun r m => applyMutation m r) s.reg := by
  induction evs generalizing s with
  | nil => rfl
  | cons e rest ih =>
    cases e with
    | inspect =>
      rw [runPass, List.foldl_cons, ← runPass, ih, passStep_reg]
      rfl
    | mutate m =>
      rw [runPass, List.foldl_cons, ← runPass, ih]
      rfl

theorem passStep_halted_mono (u : Update) (s : PassSt) (e : PassEv)
    (h : s.halted = true) : (passStep u s e).halted = true := by
  cases e with
  | mutate m => simpa [passStep]
  | inspect => simp [passStep, inspectStep, h]

theorem runPass_halted_mono (u : Update) (evs : List PassEv) (s : PassSt)
    (h : s.halted = true) : (runPass u evs s).halted = true := by
  induction evs generalizing s with
  | nil => exact h
  | cons e rest ih =>
    rw [runPass, List.foldl_cons, ← runPass]
    exact ih _ (passStep_halted_mono u s e h)

theorem passStep_out_none (u : Update) (s : PassSt) (e : PassEv)
    (h : s.halted = false → s.out = none) :
    (passStep u s e).halted = false → (passStep u s e).out = none := by
  cases e with
  | mutate m => intro hh; simpa [passStep] using h (by simpa [passStep] using hh)
  | inspect =>
    intro hh
    cases hs : s.halted with
    | true => simp [passStep, inspectStep, hs] at hh
    | false =>
      simp only [passStep, inspectStep, hs, Bool.false_eq_true, if_false] at hh ⊢
      cases hrem : s.rem with
      | nil => simpa [hrem] using h hs
      | cons p rest =>
        obtain ⟨g, hs2⟩ := p
        cases hs2 with
        | nil => simpa [hrem] using h hs
        | cons hd tl =>
          cases hag : argsOf hd u with
          | given => rw [hrem] at hh; simp [hag] at hh
          | skip => simpa [hrem, hag] using h hs
          | err => simpa [hrem, hag] using h hs

theorem runPass_out_none (u : Update) (evs : List PassEv) (s : PassSt)
    (h : s.halted = false → s.out = none) :
    (runPass u evs s).halted = false → (runPass u evs s).out = none := by
  induction evs generalizing s with
  | nil => exact h
  | cons e rest ih =>
    rw [runPass, List.foldl_cons, ← runPass]
    exact ih _ (passStep_out_none u s e h)

theorem passMeasure_zero (r : Registry) (h : passMeasure r = 0) : r = [] := by
  cases r with
  | nil => rfl
  | cons p rest =>
    exfalso
    rw [passMeasure] at h
    omega

theorem inspect_progress (u : Update) (s : PassSt)
    (hh : s.halted = false) (hr : s.rem ≠ []) :
    (inspectStep u s).halted = true ∨
      passMeasure (inspectStep u s).rem + 1 = passMeasure s.rem := by
  cases hrem : s.rem with
  | nil => exact absurd hrem hr
  | cons p rest =>
    obtain ⟨g, hs⟩ := p
    cases hs with
    | nil =>
      right
      simp [inspectStep, hh, hrem, passMeasure]
      omega
    | cons hd tl =>
      cases hag : argsOf hd u with
      | given => left; simp [inspectStep, hh, hrem, hag]
      | skip =>
        right
        simp [inspectStep, hh, hrem, hag, passMeasure]
        omega
      | err =>
        right
        simp [inspectStep, hh, hrem, hag, passMeasure]
        omega

theorem runPass_complete (u : Update) (evs : List PassEv) (s : PassSt)
    (hin : passMeasure s.rem ≤ countInspects evs) :
    (runPass u evs s).halted = true ∨ (runPass u evs s).rem = [] := by
  induction evs generalizing s with
  | nil =>
    right
    simp only [countInspects, List.countP_nil] at hin
    exact passMeasure_zero _ (Nat.le_zero.mp hin)
  | cons e rest ih =>
    cases e with
    | mutate m =>
      rw [runPass, List.foldl_cons, ← runPass]
      have hc : countInspects (PassEv.mutate m :: rest) = countInspects rest := by
        simp [countInspects, List.countP_cons]
      rw [hc] at hin
      exact ih { s with reg := applyMutation m s.reg } (by simpa using hin)
    | inspect =>
      rw [runPass, List.foldl_cons, ← runPass]
      by_cases hs : s.halted
      · left
        exact runPass_halted_mono u rest _ (passStep_halted_mono u s .inspect hs)
      · have hc : countInspects (PassEv.inspect :: rest) = countInspects rest + 1 := by
          simp [countInspects, List.countP_cons]
        rw [hc] at hin
        by_cases hrem : s.rem = []
        · have hstep : passStep u s .inspect = s := by
            simp [passStep, inspectStep, hs, hrem]
          rw [hstep]
          exact ih s (by rw [hrem]; simp [passMeasure])
        · rcases inspect_progress u s (by simpa using hs) hrem with hhalt | hmeas
          · left
            exact runPass_halted_mono u rest _ (by simpa [passStep] using hhalt)
          · exact ih _ (by simp only [passStep]; omega)

/-- C7.  Each dispatch pass operates on a snapshot of the handler registry
taken under the registration lock at the start of the pass: adding or
removing a handler while a pass is executing (including from within a
running handler) never changes which handlers the in-progress pass delivers
to, and the change is visible starting from the next update's pass. -/
theorem dispatcher_snapshot_c7 (evs : List PassEv) (reg : Registry) (u u2 : Update)
    (hin : passMeasure reg ≤ countInspects evs) :
    (runPass u evs (initPass reg)).out = firstMatch (flatHandlers reg) u ∧
    (runPass u evs (initPass reg)).reg =
      (mutationsOf evs).foldl (fun r m => applyMutation m r) reg ∧
    (handlePacket ((runPass u evs (initPass reg)).reg) u2).invoked =
      (handlePacket ((mutationsOf evs).foldl (fun r m => applyMutation m r) reg) u2).invoked := by
  have hreg : (runPass u evs (initPass reg)).reg =
      (mutationsOf evs).foldl (fun r m => applyMutation m r) reg :=
    runPass_reg u evs (initPass reg)
  have hview := runPass_view u evs (initPass reg)
  have hinit : passView u (initPass reg) = firstMatch (flatHandlers reg) u := by
    simp [passView, initPass]
  refine ⟨?_, hreg, by rw [hreg]⟩
  rcases runPass_complete u evs (initPass reg) (by simpa [initPass] using hin) with hhalt | hnil
  · rw [hinit] at hview
    rw [← hview]
    simp [passView, hhalt]
  · cases hfin : (runPass u evs (initPass reg)).halted
    · have hout : (runPass u evs (initPass reg)).out = none :=
        runPass_out_none u evs (initPass reg) (by simp [initPass]) hfin
      rw [hinit] at hview
      rw [hout, ← hview]
      simp [passView, hfin, hnil, flatHandlers, firstMatch]
    · rw [hinit] at hview
      rw [← hview]
      simp [passView, hfin]

theorem dispatcher_snapshot_c7_witness :
    (runPass 0 [.inspect, .mutate (.addM hErrRaw 0), .inspect]
        (initPass [(3, [hOkRaw])])).out = firstMatch (flatHandlers [(3, [hOkRaw])]) 0 ∧
    (runPass 0 [.inspect, .mutate (.addM hErrRaw 0), .inspect]
        (initPass [(3, [hOkRaw])])).reg =
      (mutationsOf [.inspect, .mutate (.addM hErrRaw 0), .inspect]).foldl
        (fun r m => applyMutation m r) [(3, [hOkRaw])] ∧
    (handlePacket ((runPass 0 [.inspect, .mutate (.addM hErrRaw 0), .inspect]
        (initPass [(3, [hOkRaw])])).reg) 1).invoked =
      (handlePacket ((mutationsOf [.inspect, .mutate (.addM hErrRaw 0), .inspect]).foldl
        (fun r m => applyMutation m r) [(3, [hOkRaw])]) 1).invoked :=
  dispatcher_snapshot_c7 [.inspect, .mutate (.addM hErrRaw 0), .inspect]
    [(3, [hOkRaw])] 0 1 (by simp [passMeasure, countInspects, List.countP_cons])

/-! ### Relay request operation (link.py, `Link.post`)

One call to `Link.post` is a cache lookup followed by a `for r in
range(retries)` loop.  Each iteration registers a one-shot event handler,
sends the command, and awaits a future with a timeout; the iteration's fate
is decided by the environment (`AttemptOutcome`): the future resolves with
a parsed reply, `asyncio.TimeoutError`, `UserBlockedError`,
`FloodWaitError` with a wait duration, or some other exception.  The model
records the observable actions of each iteration in source order,
including the inner `finally` (delete sent messages, remove handler), and
the accumulated waiting time in seconds. -/

/-- A parsed relay reply (`tomli.loads`): the fields `Link.post` inspects. -/
structure Toml where
  command : String
  status : Option String
deriving DecidableEq, Repr

def okStatus : String := "ok"

inductive AttemptOutcome where
  | success (t : Nat) (res : Toml)
  | timeout
  | userBlocked
  | floodWait (w : Nat)
  | otherError
deriving DecidableEq, Repr

inductive LinkAct where
  | addHandler
  | sendMsg
  | deleteSent
  | removeHandler
  | sleep (n : Nat)
  | cacheSet (ttl : Nat)
  | logWarn
  | logBlocked
  | logReqError
deriving DecidableEq, Repr

inductive ErrKind where
  | timeoutK
  | blockedK
  | otherK
deriving DecidableEq, Repr

/-- What `Link.post` hands back to its caller: a result dict, `None`, or a
raised `LinkError` of a given flavour. -/
inductive PostResult where
  | got (res : Toml)
  | noneRes
  | raisedError (k : ErrKind)
deriving DecidableEq, Repr

/-- The retry loop of `Link.post` (link.py lines 77-160), from iteration
`r` with `fuel = retries - r` iterations remaining.  Per branch the action
list follows the source order: `try` body, `except` clause, inner
`finally`, outer `except` clauses. -/
def postGo (env : Nat → AttemptOutcome) (fail : Bool) (tmo retries : Nat) :
    Nat → Nat → PostResult × List (List LinkAct) × Nat
  | 0, _ => (.noneRes, [], 0)
  | fuel + 1, r =>
    match env r with
    | .success t res =>
      (.got res,
       [[.addHandler, .sendMsg] ++
          (if res.status = some okStatus then [.cacheSet 3600] else []) ++
          [.deleteSent, .removeHandler]],
       t)
    | .timeout =>
      if r + 1 < retries then
        let rest := postGo env fail tmo retries fuel (r + 1)
        (rest.1,
         [.addHandler, .sendMsg, .deleteSent, .logWarn, .sleep 3, .deleteSent,
           .removeHandler] :: rest.2.1,
         tmo + 3 + rest.2.2)
      else
        if fail then
          (.raisedError .timeoutK,
           [[.addHandler, .sendMsg, .deleteSent, .deleteSent, .removeHandler,
             .logReqError]],
           tmo)
        else
          (.noneRes,
           [[.addHandler, .sendMsg, .deleteSent, .logWarn, .deleteSent,
             .removeHandler]],
           tmo)
    | .userBlocked =>
      if fail then
        (.raisedError .blockedK,
         [[.addHandler, .sendMsg, .deleteSent, .removeHandler, .logReqError]],
         0)
      else
        (.noneRes,
         [[.addHandler, .sendMsg, .logBlocked, .deleteSent, .removeHandler]],
         0)
    | .floodWait w =>
      let rest := postGo env fail tmo retries fuel (r + 1)
      (rest.1,
       [.addHandler, .sendMsg, .deleteSent, .removeHandler, .logWarn,
         .sleep w] :: rest.2.1,
       w + rest.2.2)
    | .otherError =>
      if fail then
        (.raisedError .otherK,
         [[.addHandler, .sendMsg, .deleteSent, .removeHandler, .logReqError]],
         0)
      else
        (.noneRes,
         [[.addHandler, .sendMsg, .deleteSent, .removeHandler, .logReqError]],
         0)

/-- `Link.post` (link.py lines 71-160): `cache` is the state of
`self.client.cache` at the key derived from the command and the
per-process instance id (`None` when missing or expired).  A non-expired
entry is returned immediately, before the loop, with no actions at all. -/
def post (cache : Option Toml) (env : Nat → AttemptOutcome) (fail : Bool)
    (tmo retries : Nat) : PostResult × List (List LinkAct) × Nat :=
  match cache with
  | some v => (.got v, [], 0)
  | none => postGo env fail tmo retries retries 0

/-- The relay peer's username, `Link.bot` (link.py line 24). -/
def linkBot : String := "embykeeper_auth_bot"

/-- A Python value as compared by `==` / `!=`: Telethon's `event.chat_id`
is an `int`, while `Link.bot` is a username string.  In Python, `==`
between an `int` and a `str` is `False`, so `!=` between them is `True`. -/
inductive PyVal where
  | int (n : Int)
  | str (s : String)
deriving DecidableEq, Repr

def pyEq : PyVal → PyVal → Bool
  | .int a, .int b => a == b
  | .str a, .str b => a == b
  | _, _ => false

def pyNeq (a b : PyVal) : Bool := !(pyEq a b)

/-- An inbound event seen by the one-shot handler: the integer chat id
Telethon puts on the event, and the result of `tomli.loads(event.text)`
(`none` for a decode error). -/
structure InEvent where
  chatId : Int
  payload : Option Toml

/-- The one-shot `message_handler` of `Link.post` (link.py lines 85-99).
Returns the new state of the future and whether the inbound message was
deleted.  The guard `event.chat_id != self.bot` (link.py line 86) compares
the integer chat id with the username string `Link.bot`; its early return
skips the `try`/`finally`, so a message it fires on is neither inspected
nor deleted. -/
def message_handler (cmd : String) (cond : Option (Toml → Bool)) (fut : Option Toml)
    (e : InEvent) : Option Toml × Bool :=
  if pyNeq (.int e.chatId) (.str linkBot) then (fut, false)
  else
    match e.payload with
    | none => (fut, true)
    | some toml =>
      if toml.command = cmd then
        if (match cond with | none => true | some c => c toml) then
          match fut with
          | none => (some toml, true)
          | some v => (some v, true)
        else (fut, true)
      else (fut, true)

def flatActs : List (List LinkAct) → List LinkAct
  | [] => []
  | s :: rest => s ++ flatActs rest

def isCacheSet : LinkAct → Bool
  | .cacheSet _ => true
  | _ => false

theorem postGo_cacheSet (env : Nat → AttemptOutcome) (fail : Bool)
    (tmo retries : Nat) : ∀ fuel r,
    (flatActs (postGo env fail tmo retries fuel r).2.1).filter isCacheSet =
      (match (postGo env fail tmo retries fuel r).1 with
       | .got res => if res.status = some okStatus then [.cacheSet 3600] else []
       | _ => []) := by
  intro fuel
  induction fuel with
  | zero => intro r; simp [postGo, flatActs]
  | succ n ih =>
    intro r
    cases henv : env r with
    | success t res =>
      by_cases hst : res.status = some okStatus <;>
        simp [postGo, henv, hst, flatActs, isCacheSet, List.filter_append]
    | timeout =>
      by_cases hlt : r + 1 < retries
      · have := ih (r + 1)
        simp only [postGo, henv, hlt, if_true, flatActs, List.filter_append]
        simpa [isCacheSet] using this
      · by_cases hf : fail <;> simp [postGo, henv, hlt, hf, flatActs, isCacheSet]
    | userBlocked =>
      by_cases hf : fail <;> simp [postGo, henv, hf, flatActs, isCacheSet]
    | floodWait w =>
      have := ih (r + 1)
      simp only [postGo, henv, flatActs, List.filter_append]
      simpa [isCacheSet] using this
    | otherError =>
      by_cases hf : fail <;> simp [postGo, henv, hf, flatActs, isCacheSet]

theorem postGo_segs_ne_nil (env : Nat → AttemptOutcome) (fail : Bool)
    (tmo retries fuel r : Nat) :
    (postGo env fail tmo retries (fuel + 1) r).2.1 ≠ [] := by
  cases henv : env r with
  | success t res => simp [postGo, henv]
  | timeout =>
    by_cases hlt : r + 1 < retries
    · simp [postGo, henv, hlt]
    · by_cases hf : fail <;> simp [postGo, henv, hlt, hf]
  | userBlocked => by_cases hf : fail <;> simp [postGo, henv, hf]
  | floodWait w => simp [postGo, henv]
  | otherError => by_cases hf : fail <;> simp [postGo, henv, hf]

/-- C4.  For every call to the relay request operation: if a non-expired
cache entry exists for the key derived from the command plus the
per-process instance identifier, that cached result is returned with zero
outbound messages sent; otherwise an exchange is performed and its result
is stored in the cache only when it carries the success marker (status
ok), with the configured TTL. -/
theorem link_cache_c4 (v : Toml) (env : Nat → AttemptOutcome) (fail : Bool)
    (tmo retries fuel r : Nat) :
    post (some v) env fail tmo retries = (.got v, [], 0) ∧
    post none env fail tmo retries = postGo env fail tmo retries retries 0 ∧
    (postGo env fail tmo retries (fuel + 1) r).2.1 ≠ [] ∧
    (flatActs (postGo env fail tmo retries fuel r).2.1).filter isCacheSet =
      (match (postGo env fail tmo retries fuel r).1 with
       | .got res => if res.status = some okStatus then [.cacheSet 3600] else []
       | _ => []) :=
  ⟨rfl, rfl, postGo_segs_ne_nil env fail tmo retries fuel r,
    postGo_cacheSet env fail tmo retries fuel r⟩

theorem postGo_seg_cleanup (env : Nat → AttemptOutcome) (fail : Bool)
    (tmo retries : Nat) : ∀ fuel r seg,
    seg ∈ (postGo env fail tmo retries fuel r).2.1 →
    LinkAct.removeHandler ∈ seg ∧ LinkAct.deleteSent ∈ seg ∧
      LinkAct.sendMsg ∈ seg := by
  intro fuel
  induction fuel with
  | zero => intro r seg hseg; simp [postGo] at hseg
  | succ n ih =>
    intro r seg hseg
    cases henv : env r with
    | success t res =>
      rw [postGo] at hseg
      simp only [henv] at hseg
      by_cases hst : res.status = some okStatus <;>
        simp [hst] at hseg <;> simp [hseg]
    | timeout =>
      rw [postGo] at hseg
      simp only [henv] at hseg
      by_cases hlt : r + 1 < retries
      · simp only [hlt, if_true] at hseg
        rcases List.mem_cons.mp hseg with rfl | htail
        · refine ⟨by simp, by simp, by simp⟩
        · exact ih (r + 1) seg htail
      · by_cases hf : fail <;> simp [hlt, hf] at hseg <;> simp [hseg]
    | userBlocked =>
      rw [postGo] at hseg
      simp only [henv] at hseg
      by_cases hf : fail <;> simp [hf] at hseg <;> simp [hseg]
    | floodWait w =>
      rw [postGo] at hseg
      simp only [henv] at hseg
      rcases List.mem_cons.mp hseg with rfl | htail
      · refine ⟨by simp, by simp, by simp⟩
      · exact ih (r + 1) seg htail
    | otherError =>
      rw [postGo] at hseg
      simp only [henv] at hseg
      by_cases hf : fail <;> simp [hf] at hseg <;> simp [hseg]

theorem pyNeq_int_str (n : Int) (s : String) : pyNeq (.int n) (.str s) = true := by
  simp [pyNeq, pyEq]

/-- C5 (code bug).  The claim says every inbound message observed on the
relay peer's channel by the one-shot handler is deleted after inspection,
whether or not it matched.  In the source the guard
`event.chat_id != self.bot` (link.py line 86) compares Telethon's integer
chat id with the username string `embykeeper_auth_bot`; in Python an `int`
never equals a `str`, so the guard fires for every inbound event and the
handler returns before the `try`/`finally`: no inbound message is ever
inspected, matched, or deleted, and the future is never resolved.  (The
outbound half of the claim does hold: see `postGo_seg_cleanup`.) -/
theorem link_inbound_never_deleted_c5 (cmd : String) (cond : Option (Toml → Bool))
    (fut : Option Toml) (e : InEvent) :
    pyNeq (.int e.chatId) (.str linkBot) = true ∧
    message_handler cmd cond fut e = (fut, false) :=
  ⟨pyNeq_int_str e.chatId linkBot,
   by simp [message_handler, pyNeq_int_str]⟩

/-- The environment in which every attempt times out. -/
def envT : Nat → AttemptOutcome := fun _ => .timeout

/-! ### All-timeout runs (claim C6) -/

def timeoutRetrySeg : List LinkAct :=
  [.addHandler, .sendMsg, .deleteSent, .logWarn, .sleep 3, .deleteSent,
    .removeHandler]

def timeoutFinalSeg (fail : Bool) : List LinkAct :=
  if fail then
    [.addHandler, .sendMsg, .deleteSent, .deleteSent, .removeHandler, .logReqError]
  else
    [.addHandler, .sendMsg, .deleteSent, .logWarn, .deleteSent, .removeHandler]

def timeoutSegs (fail : Bool) : Nat → List (List LinkAct)
  | 0 => []
  | 1 => [timeoutFinalSeg fail]
  | n + 2 => timeoutRetrySeg :: timeoutSegs fail (n + 1)

theorem postGo_timeout_step (env : Nat → AttemptOutcome) (fail : Bool)
    (tmo retries fuel r : Nat) (henv : env r = .timeout)
    (hlt : r + 1 < retries) :
    postGo env fail tmo retries (fuel + 1) r =
      ((postGo env fail tmo retries fuel (r + 1)).1,
       timeoutRetrySeg :: (postGo env fail tmo retries fuel (r + 1)).2.1,
       tmo + 3 + (postGo env fail tmo retries fuel (r + 1)).2.2) := by
  simp only [postGo, henv, hlt, if_true, timeoutRetrySeg]

theorem postGo_all_timeout (env : Nat → AttemptOutcome) (fail : Bool)
    (tmo retries : Nat) : ∀ fuel r, 1 ≤ fuel → fuel + r = retries →
    (∀ i, r ≤ i → i < retries → env i = .timeout) →
    postGo env fail tmo retries fuel r =
      ((if fail then .raisedError .timeoutK else .noneRes),
       timeoutSegs fail fuel, fuel * tmo + (fuel - 1) * 3) := by
  intro fuel
  induction fuel with
  | zero => intro r h1; omega
  | succ n ih =>
    intro r h1 hsum hto
    have henv : env r = .timeout := hto r (le_refl r) (by omega)
    cases n with
    | zero =>
      have hlt : ¬ (r + 1 < retries) := by omega
      by_cases hf : fail <;>
        simp [postGo, henv, hlt, hf, timeoutSegs, timeoutFinalSeg]
    | succ m =>
      have hlt : r + 1 < retries := by omega
      have hrest := ih (r + 1) (by omega) (by omega)
        (fun i hi1 hi2 => hto i (by omega) hi2)
      rw [postGo_timeout_step env fail tmo retries (m + 1) r henv hlt, hrest]
      simp only [timeoutSegs, Prod.mk.injEq, Nat.add_sub_cancel, true_and, and_true]
      ring

/-- C6.  When an attempt of the relay request operation times out, the
outbound message(s) are deleted; if attempts remain, the operation sleeps a
short fixed delay and retries, and only after all max_retries attempts have
timed out does it return a timeout outcome (raising the error when fail is
requested, otherwise returning an empty result), so total elapsed time is
approximately retries times the per-attempt timeout plus the inter-attempt
delays, not less. -/
theorem link_timeout_retry_c6 (env : Nat → AttemptOutcome) (fail : Bool)
    (tmo retries : Nat) (h1 : 1 ≤ retries)
    (hto : ∀ i, i < retries → env i = .timeout) :
    post none env fail tmo retries =
      ((if fail then .raisedError .timeoutK else .noneRes),
       timeoutSegs fail retries, retries * tmo + (retries - 1) * 3) :=
  postGo_all_timeout env fail tmo retries retries 0 h1 (by omega)
    (fun i _ hi2 => hto i hi2)

theorem link_timeout_retry_c6_witness :
    post none envT false 20 3 =
      (PostResult.noneRes, timeoutSegs false 3, 66) := by
  have := link_timeout_retry_c6 envT false 20 3 (by decide)
    (fun i _ => rfl)
  simpa using this

/-! ### Rate-limit handling (claim C3)

The source catches `FloodWaitError` in the outer `except` of the retry
loop (link.py lines 150-154): it sleeps the carried duration and then
`continue`s — which advances the `for r in range(retries)` loop to the
next iteration, so the rate-limited attempt does consume one of the
`retries` loop slots. -/

theorem link_floodwait_c3_amended (env : Nat → AttemptOutcome) (fail : Bool)
    (tmo retries fuel r w : Nat) (hw : env r = .floodWait w) :
    postGo env fail tmo retries (fuel + 1) r =
      ((postGo env fail tmo retries fuel (r + 1)).1,
       [.addHandler, .sendMsg, .deleteSent, .removeHandler, .logWarn, .sleep w]
         :: (postGo env fail tmo retries fuel (r + 1)).2.1,
       w + (postGo env fail tmo retries fuel (r + 1)).2.2) := by
  rw [postGo]
  simp only [hw]

/-- Environment for the counterexample: a rate limit on attempt 1, then
timeouts; a (hypothetical) fourth attempt would succeed. -/
def envFlood : Nat → AttemptOutcome := fun r =>
  if r = 0 then .floodWait 5
  else if r ≤ 2 then .timeout
  else .success 0 ⟨okStatus, some okStatus⟩

/-- C3 counterexample.  With `retries = 3` and a rate-limit signal on the
first attempt, the loop performs only two further attempts: the run ends
with the timeout outcome after three loop iterations, and the success that
a fourth attempt would have returned is never reached — so the
rate-limited attempt did consume one of the `max_retries` budget slots. -/
theorem link_floodwait_c3_counterexample :
    (post none envFlood false 20 3).1 = PostResult.noneRes ∧
    (post none envFlood false 20 3).2.1.length = 3 ∧
    (post none envFlood false 20 3).1 ≠ PostResult.got ⟨okStatus, some okStatus⟩ := by
  refine ⟨rfl, rfl, by decide⟩

theorem link_floodwait_c3_amended_witness :
    postGo envFlood false 20 3 3 0 =
      ((postGo envFlood false 20 3 2 1).1,
       [.addHandler, .sendMsg, .deleteSent, .removeHandler, .logWarn, .sleep 5]
         :: (postGo envFlood false 20 3 2 1).2.1,
       5 + (postGo envFlood false 20 3 2 1).2.2) :=
  link_floodwait_c3_amended envFlood false 20 3 2 0 5 rfl

/-- C9.  When the relay peer has blocked the automation account, the relay
request operation treats the condition as terminal: it performs no further
retry attempts and surfaces the condition distinctly (raising a protocol
error when fail is requested, otherwise emitting a distinct operator-facing
diagnostic and returning an empty result). -/
theorem link_blocked_c9 (env : Nat → AttemptOutcome) (fail : Bool)
    (tmo retries fuel r : Nat) (hb : env r = .userBlocked) :
    postGo env fail tmo retries (fuel + 1) r =
      ((if fail then .raisedError .blockedK else .noneRes),
       [if fail then
          [.addHandler, .sendMsg, .deleteSent, .removeHandler, .logReqError]
        else
          [.addHandler, .sendMsg, .logBlocked, .deleteSent, .removeHandler]],
       0) ∧
    (postGo env fail tmo retries (fuel + 1) r).2.1.length = 1 := by
  rw [postGo]
  simp only [hb]
  by_cases hf : fail <;> simp [hf]

def envB : Nat → AttemptOutcome := fun _ => .userBlocked

theorem link_blocked_c9_witness :
    (postGo envB false 20 3 3 0 =
      (PostResult.noneRes,
       [[.addHandler, .sendMsg, .logBlocked, .deleteSent, .removeHandler]],
       0)) ∧
    (postGo envB false 20 3 3 0).2.1.length = 1 := by
  have := link_blocked_c9 envB false 20 3 2 0 rfl
  simpa using this

/-! ### Session pool refcounts and the watchdog (claim C8)

`ClientsSession` keeps `pool[phone] = (client, ref)`.  `__aexit__`
decrements `ref` under the pool lock for each phone the context holds
(tele.py lines 878-887) and never tears the client down.  The watchdog
(tele.py lines 559-581) scans every 10 seconds: an entry observed with
`ref <= 0` bumps a per-phone counter, and when the counter reaches
`timeout / 10` consecutive observations it is reset and `clean` runs.
`clean` (tele.py lines 583-596) re-checks `if not ref:` under the lock and
then runs `await client.stop()` — but `Client` extends Telethon's
`TelegramClient`, which has no `stop` method (`stop` is Pyrogram API,
like the unported `storage.save()` and `export_session_string()` calls
elsewhere in the file), so the attribute lookup raises `AttributeError`
before `cls.pool.pop(phone, None)` can run.  The exception escapes
`clean`, is caught neither by the watchdog's `except (TypeError,
KeyError)` nor by its outer `except asyncio.CancelledError`, and the
watchdog task dies.  The model tracks one phone's entry: `present` (entry
in the pool), `ref` (the stored refcount, a Python int), `counter` (the
watchdog counter for this phone), `holders` (how many context managers
currently hold the phone — the `self.phones` lists), `stops` (how many
client teardowns completed — never, since `client.stop()` raises), and
`dead` (the watchdog task has crashed). -/

structure PoolSt where
  present : Bool
  ref : Int
  counter : Option Nat
  holders : Nat
  stops : Nat
  dead : Bool
deriving DecidableEq, Repr

/-- `timeout / 10` for the default `timeout=120`: the number of consecutive
scans an entry must be seen idle before `clean` is attempted. -/
def scanLimit : Nat := 12

inductive PoolOp where
  | acquire
  | release
  | scan
deriving DecidableEq, Repr

/-- One pool transition: `acquire` is `__aenter__`'s refcount bump (or the
collapsed first login setting `(client, 1)`), `release` is `__aexit__`'s
decrement for a held phone, `scan` is one watchdog pass over this phone.
When the counter reaches the limit the pass resets it and calls `clean`;
with `ref == 0` the `await client.stop()` line raises `AttributeError`,
so the entry is not removed and the watchdog dies (`dead := true`); a dead
watchdog performs no further scans. -/
def poolStep : PoolOp → PoolSt → PoolSt
  | .acquire, s =>
    if s.present then { s with ref := s.ref + 1, holders := s.holders + 1 }
    else { s with present := true, ref := 1, holders := s.holders + 1 }
  | .release, s =>
    if s.present = true ∧ 0 < s.holders then
      { s with ref := s.ref - 1, holders := s.holders - 1 }
    else s
  | .scan, s =>
    if s.dead then s else
    if s.present then
      if s.ref ≤ 0 then
        match s.counter with
        | some k =>
          if k + 1 ≥ scanLimit then
            -- `counter[p] = 0`, then `clean(p)` raises AttributeError at
            -- `await client.stop()` when `not ref`: nothing is removed and
            -- the watchdog crashes
            if s.ref = 0 then
              { s with counter := some 0, dead := true }
            else { s with counter := some 0 }
          else { s with counter := some (k + 1) }
        | none => { s with counter := some 1 }
      else { s with counter := none }
    else s

/-- A pool state holding an idle entry the (still live) watchdog has
already observed `k` consecutive times. -/
def poolCounting (k hd st : Nat) : PoolSt := ⟨true, 0, some k, hd, st, false⟩

theorem scan_countdown (hd st : Nat) : ∀ n k, 1 ≤ n → k + n = scanLimit →
    (poolStep .scan)^[n] (poolCounting k hd st) =
      (⟨true, 0, some 0, hd, st, true⟩ : PoolSt) := by
  intro n
  induction n with
  | zero => intro k h1; omega
  | succ n2 ih =>
    intro k h1 hsum
    cases n2 with
    | zero =>
      have hk : k + 1 ≥ scanLimit := by omega
      have hstep : poolStep .scan (poolCounting k hd st) =
          (⟨true, 0, some 0, hd, st, true⟩ : PoolSt) := by
        simp [poolStep, poolCounting, hk]
      rw [Function.iterate_one, hstep]
    | succ n3 =>
      have hk : ¬ (k + 1 ≥ scanLimit) := by omega
      rw [Function.iterate_succ_apply]
      have hstep : poolStep .scan (poolCounting k hd st) =
          poolCounting (k + 1) hd st := by
        simp [poolStep, poolCounting, hk]
      rw [hstep]
      exact ih (k + 1) (by omega) (by omega)

theorem scan_kills_watchdog (hd st : Nat) :
    (poolStep .scan)^[scanLimit] (⟨true, 0, none, hd, st, false⟩ : PoolSt) =
      (⟨true, 0, some 0, hd, st, true⟩ : PoolSt) := by
  have h1 : scanLimit = 11 + 1 := rfl
  rw [h1, Function.iterate_succ_apply]
  have hstep : poolStep .scan (⟨true, 0, none, hd, st, false⟩ : PoolSt) =
      poolCounting 1 hd st := by
    simp [poolStep, poolCounting]
  rw [hstep]
  exact scan_countdown hd st 11 1 (by omega) (by omega)

/-- C8 (code bug).  Releasing indeed only decrements the refcount and
never tears the Session down, and nothing ever destroys a Session whose
refcount is positive — but the claim's eviction guarantee fails on the
code: once an idle entry has been observed for the configured number of
consecutive scans, the watchdog calls `clean`, whose `await client.stop()`
raises `AttributeError` (Telethon's client has no `stop` method), so the
entry is never removed from the pool, no teardown ever completes
(`stops` is unchanged by every transition), and the crashed watchdog
performs no further scans. -/
theorem pool_watchdog_never_evicts_c8 (s : PoolSt) (op : PoolOp) :
    ((poolStep .release s).present = s.present ∧
      (poolStep .release s).stops = s.stops) ∧
    (poolStep op s).stops = s.stops ∧
    (s.present = true → (poolStep op s).present = true) ∧
    (s.present = true → s.ref = 0 → s.counter = none → s.dead = false →
      (poolStep .scan)^[scanLimit] s = { s with counter := some 0, dead := true }) ∧
    (s.dead = true → poolStep .scan s = s) := by
  obtain ⟨p, rf, c, hd, st, dd⟩ := s
  refine ⟨?_, ?_, ?_, ?_, ?_⟩
  · by_cases hcnd : p = true ∧ 0 < hd
    · have hstep : poolStep .release ⟨p, rf, c, hd, st, dd⟩ =
          ⟨p, rf - 1, c, hd - 1, st, dd⟩ := by
        simp only [poolStep]
        rw [if_pos hcnd]
      rw [hstep]
      exact ⟨rfl, rfl⟩
    · have hstep : poolStep .release ⟨p, rf, c, hd, st, dd⟩ =
          ⟨p, rf, c, hd, st, dd⟩ := by
        simp only [poolStep]
        rw [if_neg hcnd]
      rw [hstep]
      exact ⟨rfl, rfl⟩
  · cases op with
    | acquire => cases p <;> simp [poolStep]
    | release =>
      by_cases hcnd : p = true ∧ 0 < hd
      · have hstep : poolStep .release ⟨p, rf, c, hd, st, dd⟩ =
            ⟨p, rf - 1, c, hd - 1, st, dd⟩ := by
          simp only [poolStep]
          rw [if_pos hcnd]
        rw [hstep]
      · have hstep : poolStep .release ⟨p, rf, c, hd, st, dd⟩ =
            ⟨p, rf, c, hd, st, dd⟩ := by
          simp only [poolStep]
          rw [if_neg hcnd]
        rw [hstep]
    | scan =>
      cases dd with
      | true => simp [poolStep]
      | false =>
        cases p with
        | false => simp [poolStep]
        | true =>
          by_cases hr : (rf : Int) ≤ 0
          · cases c with
            | none => simp [poolStep, hr]
            | some k =>
              by_cases hk : k + 1 ≥ scanLimit
              · by_cases hz : rf = 0
                · simp [poolStep, hr, hk, hz]
                · simp [poolStep, hr, hk, hz]
              · simp [poolStep, hr, hk]
          · simp [poolStep, hr]
  · intro hp
    dsimp only at hp
    subst hp
    cases op with
    | acquire => simp [poolStep]
    | release =>
      by_cases hhd : 0 < hd
      · have hstep : poolStep .release ⟨true, rf, c, hd, st, dd⟩ =
            ⟨true, rf - 1, c, hd - 1, st, dd⟩ := by
          simp only [poolStep]
          rw [if_pos ⟨by trivial, hhd⟩]
        rw [hstep]
      · have hstep : poolStep .release ⟨true, rf, c, hd, st, dd⟩ =
            ⟨true, rf, c, hd, st, dd⟩ := by
          simp only [poolStep]
          rw [if_neg (fun hc2 => hhd hc2.2)]
        rw [hstep]
    | scan =>
      cases dd with
      | true => simp [poolStep]
      | false =>
        by_cases hr : (rf : Int) ≤ 0
        · cases c with
          | none => simp [poolStep, hr]
          | some k =>
            by_cases hk : k + 1 ≥ scanLimit
            · by_cases hz : rf = 0
              · simp [poolStep, hr, hk, hz]
              · simp [poolStep, hr, hk, hz]
            · simp [poolStep, hr, hk]
        · simp [poolStep, hr]
  · intro hp hrf hc hdd
    dsimp only at hp hrf hc hdd
    subst hp
    subst hrf
    subst hc
    subst hdd
    exact scan_kills_watchdog hd st
  · intro hdd
    dsimp only at hdd
    subst hdd
    simp [poolStep]

theorem pool_watchdog_never_evicts_c8_witness :
    ((poolStep .release (⟨true, 0, none, 0, 0, false⟩ : PoolSt)).present = true ∧
      (poolStep .release (⟨true, 0, none, 0, 0, false⟩ : PoolSt)).stops = 0) ∧
    (poolStep .scan (⟨true, 0, none, 0, 0, false⟩ : PoolSt)).stops = 0 ∧
    (true = true → (poolStep .scan (⟨true, 0, none, 0, 0, false⟩ : PoolSt)).present = true) ∧
    (true = true → (0 : Int) = 0 → (none : Option Nat) = none → false = false →
      (poolStep .scan)^[scanLimit] (⟨true, 0, none, 0, 0, false⟩ : PoolSt) =
        (⟨true, 0, some 0, 0, 0, true⟩ : PoolSt)) ∧
    (false = true → poolStep .scan (⟨true, 0, none, 0, 0, false⟩ : PoolSt) =
      (⟨true, 0, none, 0, 0, false⟩ : PoolSt)) :=
  pool_watchdog_never_evicts_c8 ⟨true, 0, none, 0, 0, false⟩ .scan

/-! ### Concurrent first login through the pool placeholder (claim C2)

`ClientsSession.__aenter__` (tele.py lines 840-867) checks the pool under
the class lock: a missing phone gets `pool[phone] =
asyncio.create_task(self.loginer(a))` (the placeholder); a phone mapped to
a task is awaited with the lock released and re-checked; a phone mapped to
a `(client, ref)` tuple gets `ref` incremented and the client delivered.
`ClientsSession.loginer` (tele.py lines 828-838) performs the login and on
success stores `(client, 1)` and delivers the client to its own context's
queue.  The machine below interleaves two acquirer contexts (`a1`, `a2`)
and their two possible loginer tasks (`l1`, `l2`) for one phone, in the
case where a started login succeeds (the claim is conditioned on success);
`logins` counts loginer tasks started, `res1`/`res2` record the client id
each context receives, `joined1`/`joined2` record whether a context found
the placeholder and awaited it.  Atomic steps correspond to the lock-to-
suspension regions of the source. -/

inductive C2Entry where
  | absent
  | pending1
  | pending2
  | ready (cid : Nat) (ref : Nat)
deriving DecidableEq, Repr

inductive AcqPc where
  | start
  | waiting
  | finished
deriving DecidableEq, Repr

inductive LogPc where
  | idle
  | running
  | completed
deriving DecidableEq, Repr

structure C2Cfg where
  entry : C2Entry
  logins : Nat
  pc1 : AcqPc
  pc2 : AcqPc
  lpc1 : LogPc
  lpc2 : LogPc
  res1 : Option Nat
  res2 : Option Nat
  joined1 : Bool
  joined2 : Bool
deriving DecidableEq, Repr

inductive C2Pid where
  | a1
  | a2
  | l1
  | l2
deriving DecidableEq, Repr

/-- One interleaving step.  An acquirer at `start` holds the lock and acts
on the entry (spawn a loginer / start awaiting the placeholder / increment
the refcount); at `waiting` it can only resume once the awaited task
completed, and then re-checks the entry under the lock.  A loginer at
`running` completes its (successful) login: it stores `(client, 1)` and
delivers the client to its owner's queue. -/
def c2Step : C2Pid → C2Cfg → C2Cfg
  | .a1, c =>
    match c.pc1 with
    | .start =>
      match c.entry with
      | .absent =>
        { c with entry := .pending1, lpc1 := .running, logins := c.logins + 1,
                 pc1 := .finished }
      | .pending1 => { c with pc1 := .waiting, joined1 := true }
      | .pending2 => { c with pc1 := .waiting, joined1 := true }
      | .ready cid ref =>
        { c with entry := .ready cid (ref + 1), res1 := some cid, pc1 := .finished }
    | .waiting =>
      match c.entry with
      | .absent => c
      | .pending1 => if c.lpc1 = .completed then { c with pc1 := .finished } else c
      | .pending2 => if c.lpc2 = .completed then { c with pc1 := .finished } else c
      | .ready cid ref =>
        { c with entry := .ready cid (ref + 1), res1 := some cid, pc1 := .finished }
    | .finished => c
  | .a2, c =>
    match c.pc2 with
    | .start =>
      match c.entry with
      | .absent =>
        { c with entry := .pending2, lpc2 := .running, logins := c.logins + 1,
                 pc2 := .finished }
      | .pending1 => { c with pc2 := .waiting, joined2 := true }
      | .pending2 => { c with pc2 := .waiting, joined2 := true }
      | .ready cid ref =>
        { c with entry := .ready cid (ref + 1), res2 := some cid, pc2 := .finished }
    | .waiting =>
      match c.entry with
      | .absent => c
      | .pending1 => if c.lpc1 = .completed then { c with pc2 := .finished } else c
      | .pending2 => if c.lpc2 = .completed then { c with pc2 := .finished } else c
      | .ready cid ref =>
        { c with entry := .ready cid (ref + 1), res2 := some cid, pc2 := .finished }
    | .finished => c
  | .l1, c =>
    match c.lpc1 with
    | .running => { c with entry := .ready 0 1, res1 := some 0, lpc1 := .completed }
    | _ => c
  | .l2, c =>
    match c.lpc2 with
    | .running => { c with entry := .ready 1 1, res2 := some 1, lpc2 := .completed }
    | _ => c

def c2Init : C2Cfg :=
  ⟨.absent, 0, .start, .start, .idle, .idle, none, none, false, false⟩

def c2Run (s : List C2Pid) (c : C2Cfg) : C2Cfg :=
  s.foldl (fun c pid => c2Step pid c) c

def C2Inv (c : C2Cfg) : Prop :=
  (c.logins = (if c.lpc1 = .idle then 0 else 1) + (if c.lpc2 = .idle then 0 else 1)) ∧
  (c.entry = .absent →
    c.lpc1 = .idle ∧ c.lpc2 = .idle ∧ c.pc1 = .start ∧ c.pc2 = .start ∧
    c.res1 = none ∧ c.res2 = none ∧ c.joined1 = false ∧ c.joined2 = false) ∧
  (c.entry = .pending1 →
    c.lpc1 = .running ∧ c.lpc2 = .idle ∧ c.pc1 = .finished ∧
    c.res1 = none ∧ c.res2 = none ∧ c.joined1 = false ∧
    (c.pc2 = .waiting ↔ c.joined2 = true) ∧ c.pc2 ≠ .finished) ∧
  (c.entry = .pending2 →
    c.lpc2 = .running ∧ c.lpc1 = .idle ∧ c.pc2 = .finished ∧
    c.res1 = none ∧ c.res2 = none ∧ c.joined2 = false ∧
    (c.pc1 = .waiting ↔ c.joined1 = true) ∧ c.pc1 ≠ .finished) ∧
  (∀ cid ref, c.entry = .ready cid ref →
    (cid = 0 ∧ c.lpc1 = .completed ∧ c.lpc2 = .idle ∧ c.pc1 = .finished ∧
     c.res1 = some 0 ∧ c.joined1 = false ∧
     c.res2 = (if c.pc2 = .finished then some 0 else none) ∧
     ref = 1 + (if c.pc2 = .finished then 1 else 0)) ∨
    (cid = 1 ∧ c.lpc2 = .completed ∧ c.lpc1 = .idle ∧ c.pc2 = .finished ∧
     c.res2 = some 1 ∧ c.joined2 = false ∧
     c.res1 = (if c.pc1 = .finished then some 1 else none) ∧
     ref = 1 + (if c.pc1 = .finished then 1 else 0)))

theorem c2Inv_init : C2Inv c2Init := by
  refine ⟨rfl, ?_, ?_, ?_, ?_⟩ <;> intros <;> simp_all [c2Init]

theorem c2Inv_step (pid : C2Pid) (c : C2Cfg) (h : C2Inv c) : C2Inv (c2Step pid c) := by
  obtain ⟨I1, I2, I3, I4, I5⟩ := h
  cases pid with
  | a1 =>
    cases hp : c.pc1 with
    | finished =>
      have hstep : c2Step .a1 c = c := by simp [c2Step, hp]
      rw [hstep]
      exact ⟨I1, I2, I3, I4, I5⟩
    | start =>
      cases hE : c.entry with
      | absent =>
        obtain ⟨e1, e2, e3, e4, e5, e6, e7, e8⟩ := I2 hE
        have hstep : c2Step .a1 c =
            { c with entry := .pending1, lpc1 := .running, logins := c.logins + 1, pc1 := .finished } := by
          simp [c2Step, hp, hE]
        rw [hstep]
        refine ⟨?_, ?_, ?_, ?_, ?_⟩
        · dsimp only
          rw [I1, e1, e2]
          simp
        · intro hq; dsimp only at hq; simp at hq
        · intro hq
          dsimp only
          refine ⟨rfl, e2, rfl, e5, e6, e7, ?_, ?_⟩
          · rw [e4, e8]; simp
          · rw [e4]; simp
        · intro hq; dsimp only at hq; simp at hq
        · intro cid ref hq; dsimp only at hq; simp at hq
      | pending1 =>
        exact absurd ((I3 hE).2.2.1) (by rw [hp]; simp)
      | pending2 =>
        obtain ⟨f1, f2, f3, f4, f5, f6, f7, f8⟩ := I4 hE
        have hstep : c2Step .a1 c = { c with pc1 := .waiting, joined1 := true } := by
          simp [c2Step, hp, hE]
        rw [hstep]
        refine ⟨?_, ?_, ?_, ?_, ?_⟩
        · dsimp only; exact I1
        · intro hq; dsimp only at hq; rw [hE] at hq; simp at hq
        · intro hq; dsimp only at hq; rw [hE] at hq; simp at hq
        · intro hq
          dsimp only
          exact ⟨f1, f2, f3, f4, f5, f6, by simp, by simp⟩
        · intro cid ref hq; dsimp only at hq; rw [hE] at hq; simp at hq
      | ready cid0 ref0 =>
        rcases I5 cid0 ref0 hE with ⟨g1, g2, g3, g4, g5, g6, g7, g8⟩ |
          ⟨g1, g2, g3, g4, g5, g6, g7, g8⟩
        · exact absurd g4 (by rw [hp]; simp)
        · have hne : c.pc1 ≠ .finished := by rw [hp]; simp
          have hstep : c2Step .a1 c =
              { c with entry := .ready cid0 (ref0 + 1), res1 := some cid0, pc1 := .finished } := by
            simp [c2Step, hp, hE]
          rw [hstep]
          refine ⟨?_, ?_, ?_, ?_, ?_⟩
          · dsimp only; exact I1
          · intro hq; dsimp only at hq; simp at hq
          · intro hq; dsimp only at hq; simp at hq
          · intro hq; dsimp only at hq; simp at hq
          · intro cid ref hq
            dsimp only at hq ⊢
            injection hq with h1 h2
            subst h1
            subst h2
            right
            refine ⟨g1, g2, g3, g4, g5, g6, ?_, ?_⟩
            · rw [g1]; simp
            · rw [g8, if_neg hne]; simp
    | waiting =>
      cases hE : c.entry with
      | absent =>
        have hstep : c2Step .a1 c = c := by simp [c2Step, hp, hE]
        rw [hstep]
        exact ⟨I1, I2, I3, I4, I5⟩
      | pending1 =>
        exact absurd ((I3 hE).2.2.1) (by rw [hp]; simp)
      | pending2 =>
        have hl2 : c.lpc2 = .running := (I4 hE).1
        have hstep : c2Step .a1 c = c := by simp [c2Step, hp, hE, hl2]
        rw [hstep]
        exact ⟨I1, I2, I3, I4, I5⟩
      | ready cid0 ref0 =>
        rcases I5 cid0 ref0 hE with ⟨g1, g2, g3, g4, g5, g6, g7, g8⟩ |
          ⟨g1, g2, g3, g4, g5, g6, g7, g8⟩
        · exact absurd g4 (by rw [hp]; simp)
        · have hne : c.pc1 ≠ .finished := by rw [hp]; simp
          have hstep : c2Step .a1 c =
              { c with entry := .ready cid0 (ref0 + 1), res1 := some cid0, pc1 := .finished } := by
            simp [c2Step, hp, hE]
          rw [hstep]
          refine ⟨?_, ?_, ?_, ?_, ?_⟩
          · dsimp only; exact I1
          · intro hq; dsimp only at hq; simp at hq
          · intro hq; dsimp only at hq; simp at hq
          · intro hq; dsimp only at hq; simp at hq
          · intro cid ref hq
            dsimp only at hq ⊢
            injection hq with h1 h2
            subst h1
            subst h2
            right
            refine ⟨g1, g2, g3, g4, g5, g6, ?_, ?_⟩
            · rw [g1]; simp
            · rw [g8, if_neg hne]; simp
  | a2 =>
    cases hp : c.pc2 with
    | finished =>
      have hstep : c2Step .a2 c = c := by simp [c2Step, hp]
      rw [hstep]
      exact ⟨I1, I2, I3, I4, I5⟩
    | start =>
      cases hE : c.entry with
      | absent =>
        obtain ⟨e1, e2, e3, e4, e5, e6, e7, e8⟩ := I2 hE
        have hstep : c2Step .a2 c =
            { c with entry := .pending2, lpc2 := .running, logins := c.logins + 1, pc2 := .finished } := by
          simp [c2Step, hp, hE]
        rw [hstep]
        refine ⟨?_, ?_, ?_, ?_, ?_⟩
        · dsimp only
          rw [I1, e1, e2]
          simp
        · intro hq; dsimp only at hq; simp at hq
        · intro hq; dsimp only at hq; simp at hq
        · intro hq
          dsimp only
          refine ⟨rfl, e1, rfl, e5, e6, e8, ?_, ?_⟩
          · rw [e3, e7]; simp
          · rw [e3]; simp
        · intro cid ref hq; dsimp only at hq; simp at hq
      | pending2 =>
        exact absurd ((I4 hE).2.2.1) (by rw [hp]; simp)
      | pending1 =>
        obtain ⟨f1, f2, f3, f4, f5, f6, f7, f8⟩ := I3 hE
        have hstep : c2Step .a2 c = { c with pc2 := .waiting, joined2 := true } := by
          simp [c2Step, hp, hE]
        rw [hstep]
        refine ⟨?_, ?_, ?_, ?_, ?_⟩
        · dsimp only; exact I1
        · intro hq; dsimp only at hq; rw [hE] at hq; simp at hq
        · intro hq
          dsimp only
          exact ⟨f1, f2, f3, f4, f5, f6, by simp, by simp⟩
        · intro hq; dsimp only at hq; rw [hE] at hq; simp at hq
        · intro cid ref hq; dsimp only at hq; rw [hE] at hq; simp at hq
      | ready cid0 ref0 =>
        rcases I5 cid0 ref0 hE with ⟨g1, g2, g3, g4, g5, g6, g7, g8⟩ |
          ⟨g1, g2, g3, g4, g5, g6, g7, g8⟩
        · have hne : c.pc2 ≠ .finished := by rw [hp]; simp
          have hstep : c2Step .a2 c =
              { c with entry := .ready cid0 (ref0 + 1), res2 := some cid0, pc2 := .finished } := by
            simp [c2Step, hp, hE]
          rw [hstep]
          refine ⟨?_, ?_, ?_, ?_, ?_⟩
          · dsimp only; exact I1
          · intro hq; dsimp only at hq; simp at hq
          · intro hq; dsimp only at hq; simp at hq
          · intro hq; dsimp only at hq; simp at hq
          · intro cid ref hq
            dsimp only at hq ⊢
            injection hq with h1 h2
            subst h1
            subst h2
            left
            refine ⟨g1, g2, g3, g4, g5, g6, ?_, ?_⟩
            · rw [g1]; simp
            · rw [g8, if_neg hne]; simp
        · exact absurd g4 (by rw [hp]; simp)
    | waiting =>
      cases hE : c.entry with
      | absent =>
        have hstep : c2Step .a2 c = c := by simp [c2Step, hp, hE]
        rw [hstep]
        exact ⟨I1, I2, I3, I4, I5⟩
      | pending2 =>
        exact absurd ((I4 hE).2.2.1) (by rw [hp]; simp)
      | pending1 =>
        have hl1 : c.lpc1 = .running := (I3 hE).1
        have hstep : c2Step .a2 c = c := by simp [c2Step, hp, hE, hl1]
        rw [hstep]
        exact ⟨I1, I2, I3, I4, I5⟩
      | ready cid0 ref0 =>
        rcases I5 cid0 ref0 hE with ⟨g1, g2, g3, g4, g5, g6, g7, g8⟩ |
          ⟨g1, g2, g3, g4, g5, g6, g7, g8⟩
        · have hne : c.pc2 ≠ .finished := by rw [hp]; simp
          have hstep : c2Step .a2 c =
              { c with entry := .ready cid0 (ref0 + 1), res2 := some cid0, pc2 := .finished } := by
            simp [c2Step, hp, hE]
          rw [hstep]
          refine ⟨?_, ?_, ?_, ?_, ?_⟩
          · dsimp only; exact I1
          · intro hq; dsimp only at hq; simp at hq
          · intro hq; dsimp only at hq; simp at hq
          · intro hq; dsimp only at hq; simp at hq
          · intro cid ref hq
            dsimp only at hq ⊢
            injection hq with h1 h2
            subst h1
            subst h2
            left
            refine ⟨g1, g2, g3, g4, g5, g6, ?_, ?_⟩
            · rw [g1]; simp
            · rw [g8, if_neg hne]; simp
        · exact absurd g4 (by rw [hp]; simp)
  | l1 =>
    cases hq1 : c.lpc1 with
    | idle =>
      have hstep : c2Step .l1 c = c := by simp [c2Step, hq1]
      rw [hstep]
      exact ⟨I1, I2, I3, I4, I5⟩
    | completed =>
      have hstep : c2Step .l1 c = c := by simp [c2Step, hq1]
      rw [hstep]
      exact ⟨I1, I2, I3, I4, I5⟩
    | running =>
      cases hE : c.entry with
      | absent => exact absurd (I2 hE).1 (by rw [hq1]; simp)
      | pending2 => exact absurd (I4 hE).2.1 (by rw [hq1]; simp)
      | ready cid0 ref0 =>
        rcases I5 cid0 ref0 hE with ⟨g1, g2, g3, g4, g5, g6, g7, g8⟩ |
          ⟨g1, g2, g3, g4, g5, g6, g7, g8⟩
        · exact absurd g2 (by rw [hq1]; simp)
        · exact absurd g3 (by rw [hq1]; simp)
      | pending1 =>
        obtain ⟨f1, f2, f3, f4, f5, f6, f7, f8⟩ := I3 hE
        have hstep : c2Step .l1 c =
            { c with entry := .ready 0 1, res1 := some 0, lpc1 := .completed } := by
          simp [c2Step, hq1]
        rw [hstep]
        refine ⟨?_, ?_, ?_, ?_, ?_⟩
        · dsimp only
          rw [I1, hq1, f2]
          simp
        · intro hq; dsimp only at hq; simp at hq
        · intro hq; dsimp only at hq; simp at hq
        · intro hq; dsimp only at hq; simp at hq
        · intro cid ref hq
          dsimp only at hq ⊢
          injection hq with h1 h2
          subst h1
          subst h2
          left
          refine ⟨rfl, rfl, f2, f3, rfl, f6, ?_, ?_⟩
          · rw [if_neg f8]; exact f5
          · rw [if_neg f8]
  | l2 =>
    cases hq2 : c.lpc2 with
    | idle =>
      have hstep : c2Step .l2 c = c := by simp [c2Step, hq2]
      rw [hstep]
      exact ⟨I1, I2, I3, I4, I5⟩
    | completed =>
      have hstep : c2Step .l2 c = c := by simp [c2Step, hq2]
      rw [hstep]
      exact ⟨I1, I2, I3, I4, I5⟩
    | running =>
      cases hE : c.entry with
      | absent => exact absurd (I2 hE).2.1 (by rw [hq2]; simp)
      | pending1 => exact absurd (I3 hE).2.1 (by rw [hq2]; simp)
      | ready cid0 ref0 =>
        rcases I5 cid0 ref0 hE with ⟨g1, g2, g3, g4, g5, g6, g7, g8⟩ |
          ⟨g1, g2, g3, g4, g5, g6, g7, g8⟩
        · exact absurd g3 (by rw [hq2]; simp)
        · exact absurd g2 (by rw [hq2]; simp)
      | pending2 =>
        obtain ⟨f1, f2, f3, f4, f5, f6, f7, f8⟩ := I4 hE
        have hstep : c2Step .l2 c =
            { c with entry := .ready 1 1, res2 := some 1, lpc2 := .completed } := by
          simp [c2Step, hq2]
        rw [hstep]
        refine ⟨?_, ?_, ?_, ?_, ?_⟩
        · dsimp only
          rw [I1, hq2, f2]
          simp
        · intro hq; dsimp only at hq; simp at hq
        · intro hq; dsimp only at hq; simp at hq
        · intro hq; dsimp only at hq; simp at hq
        · intro cid ref hq
          dsimp only at hq ⊢
          injection hq with h1 h2
          subst h1
          subst h2
          right
          refine ⟨rfl, rfl, f2, f3, rfl, f6, ?_, ?_⟩
          · rw [if_neg f8]; exact f4
          · rw [if_neg f8]

theorem c2Run_inv (s : List C2Pid) : C2Inv (c2Run s c2Init) := by
  suffices h : ∀ c, C2Inv c → C2Inv (c2Run s c) from h c2Init c2Inv_init
  induction s with
  | nil => intro c hc; exact hc
  | cons pid rest ih =>
    intro c hc
    exact ih _ (c2Inv_step pid c hc)

/-- C2.  If a second acquire for the same identity starts while that
identity's first login is still in flight, exactly one login attempt is
performed (the second acquire awaits the placeholder task stored in the
pool) and, on success, both acquirers receive the same Session object with
the pool refcount incremented once per acquirer. -/
theorem pool_single_login_c2 (s : List C2Pid)
    (hj : (c2Run s c2Init).joined2 = true)
    (hf : (c2Run s c2Init).pc2 = .finished) :
    (c2Run s c2Init).logins = 1 ∧
    (c2Run s c2Init).res1 = some 0 ∧
    (c2Run s c2Init).res2 = some 0 ∧
    (c2Run s c2Init).entry = .ready 0 2 := by
  obtain ⟨I1, I2, I3, I4, I5⟩ := c2Run_inv s
  cases hE : (c2Run s c2Init).entry with
  | absent =>
    obtain ⟨-, -, -, -, -, -, -, e8⟩ := I2 hE
    rw [e8] at hj
    simp at hj
  | pending1 =>
    obtain ⟨-, -, -, -, -, -, -, f8⟩ := I3 hE
    exact absurd hf f8
  | pending2 =>
    obtain ⟨-, -, -, -, -, f6, -, -⟩ := I4 hE
    rw [f6] at hj
    simp at hj
  | ready cid ref =>
    rcases I5 cid ref hE with ⟨g1, g2, g3, g4, g5, g6, g7, g8⟩ |
      ⟨g1, g2, g3, g4, g5, g6, g7, g8⟩
    · refine ⟨?_, g5, ?_, ?_⟩
      · rw [I1, g2, g3]
        simp
      · rw [g7, if_pos hf]
      · rw [g1, g8, if_pos hf]
    · rw [g6] at hj
      simp at hj

theorem pool_single_login_c2_witness :
    (c2Run [.a1, .a2, .l1, .a2] c2Init).logins = 1 ∧
    (c2Run [.a1, .a2, .l1, .a2] c2Init).res1 = some 0 ∧
    (c2Run [.a1, .a2, .l1, .a2] c2Init).res2 = some 0 ∧
    (c2Run [.a1, .a2, .l1, .a2] c2Init).entry = .ready 0 2 :=
  pool_single_login_c2 [.a1, .a2, .l1, .a2] (by decide) (by decide)
